import Mathlib

/-!
Shallow embedding of `src/frontend.rs` of the mac-launcher repository,
and verification of the specification's claims about it.

The Rust `App` struct holds the interactive state of the launcher front
end.  A Rust `String` is a UTF-8 byte sequence; we represent the `query`
as its list of characters and translate every byte-indexed operation of
the source (`String::len`, `String::insert`, byte-range slicing) through
an explicit byte-boundary computation, so that the byte/character
distinction of the source is preserved.  Operations that can panic in
Rust (string insertion at a non-boundary byte index, slicing at a
non-boundary, indexing a slice out of bounds, `Option::unwrap` on
`None`, `Result::unwrap` on `Err`) are modelled as `Option`-returning
functions where `none` is the panic.
-/

namespace MacLauncher

/-- Byte length of a string represented as its list of characters
(Rust `String::len`, which counts UTF-8 bytes). -/
def utf8Len (s : List Char) : Nat := (s.map Char.utf8Size).sum

/-- Character position corresponding to byte index `b` of the string `s`
when `b` is a UTF-8 character boundary; `none` when `b` falls inside a
multi-byte character or past the end (exactly where Rust string
insertion and slicing panic). -/
def byteToCharIdx : List Char → Nat → Option Nat
  | _, 0 => some 0
  | [], _ + 1 => none
  | c :: cs, b + 1 =>
    if b + 1 < c.utf8Size then none
    else (byteToCharIdx cs (b + 1 - c.utf8Size)).map (· + 1)

/-- The `App` struct of `frontend.rs`.  The `terminal` handle is
external I/O state with no bearing on the claims; the `tui` crate's
`list_state` is represented by its `selected` field, the only field the
source reads or writes (the stateful list render mutates only the
scroll offset). -/
structure App where
  running : Bool
  query : List Char
  prompt : List Char
  cursor_index : Nat
  list_len : Nat
  selected : Option Nat
  completion : Bool
deriving DecidableEq, Repr

/-- `App::init` after a successful terminal setup: empty query, cursor
at 0, empty list, no selection, completion preview off. -/
def initApp (prompt : List Char) : App :=
  { running := true, query := [], prompt := prompt, cursor_index := 0,
    list_len := 0, selected := none, completion := false }

/-- `App::select_first_item`: select index 0 when the list is non-empty
and nothing is selected; clear the selection when the list is empty;
otherwise leave the selection untouched (in particular it is not
clamped when it already lies at or past `list_len`). -/
def selectFirstItem (a : App) : App :=
  if a.list_len > 0 then
    match a.selected with
    | none => { a with selected := some 0 }
    | some _ => a
  else { a with selected := none }

/-- The `KeyCode::Char(ch)` arm of `wait_input`: `self.query.push(ch)`
when the cursor equals the byte length, else
`self.query.insert(self.cursor_index, ch)`, which panics (`none`) when
`cursor_index` is not a character boundary; then `cursor_index += 1`. -/
def insertChar (a : App) (ch : Char) : Option App :=
  if a.cursor_index = utf8Len a.query then
    some { a with query := a.query ++ [ch], cursor_index := a.cursor_index + 1 }
  else
    match byteToCharIdx a.query a.cursor_index with
    | some k =>
      some { a with query := a.query.take k ++ ch :: a.query.drop k,
                    cursor_index := a.cursor_index + 1 }
    | none => none

/-- The `Backspace | Delete` arm of `wait_input`:
`self.query[0..cursor_index - 1] + self.query[cursor_index..]`
(byte-range slices, panicking (`none`) on a non-boundary index), then
`cursor_index -= 1`; a no-op when `cursor_index == 0`. -/
def deleteBefore (a : App) : Option App :=
  if a.cursor_index > 0 then
    match byteToCharIdx a.query (a.cursor_index - 1),
          byteToCharIdx a.query a.cursor_index with
    | some k1, some k2 =>
      some { a with query := a.query.take k1 ++ a.query.drop k2,
                    cursor_index := a.cursor_index - 1 }
    | _, _ => none
  else some a

/-- The selection-stepping code of `wait_input` (expanded for Up, Down
and Tab), as a function of the list length, the current `ListState`
selection and the direction: when the list is non-empty and an index
`i` is selected, the new index is `i + dir`, mapped to `list_len - 1`
when negative and reduced `% list_len` otherwise; a `None` selection is
re-selected as `None`. -/
def moveSelection (listLen : Nat) (sel : Option Nat) (dir : Int) : Option Nat :=
  if listLen > 0 then
    match sel with
    | some i =>
      let j : Int := (i : Int) + dir
      some (if j < 0 then listLen - 1 else j.toNat % listLen)
    | none => none
  else sel

/-- The input-region content computed inside the draw closure of
`App::update`: when `completion` is set, the display string of
`list[self.list_state.selected().unwrap()]` — `none` (a panic) when the
selection is `None` (`unwrap`) or out of bounds (slice indexing); else
`prompt + query`.  Candidates are represented by their display
strings. -/
def inputContent (a1 : App) (list : List (List Char)) : Option (List Char) :=
  if a1.completion then
    match a1.selected with
    | some i => list.get? i
    | none => none
  else some (a1.prompt ++ a1.query)

/-- `App::update`: record `list.len()`, run `select_first_item`, draw
the frame (whose input region shows `inputContent`), and clear
`completion` at the end of the same frame.  Returns the new state and
the input-region content; `none` is the in-frame panic. -/
def update (a : App) (list : List (List Char)) : Option (App × List Char) :=
  match inputContent (selectFirstItem { a with list_len := list.length }) list with
  | some content =>
    some ({ selectFirstItem { a with list_len := list.length } with completion := false },
          content)
  | none => none

/-- Key codes distinguished by `wait_input`; `other` stands for every
remaining `KeyCode`, which the source skips with `continue`. -/
inductive KeyCode where
  | char (c : Char)
  | backspace
  | delete
  | up
  | down
  | left
  | right
  | enter
  | tab
  | other
deriving DecidableEq, Repr

/-- A key event: its code, whether the CONTROL modifier is held, and
whether the event kind is `Press | Repeat` (`press = false` covers
releases, which the source discards). -/
structure KeyEvent where
  code : KeyCode
  ctrl : Bool
  press : Bool
deriving DecidableEq, Repr

/-- Outcome of processing one event inside the `wait_input` loop:
either the function returns `Ok(shouldExit)`, or the loop keeps
waiting for the next event. -/
inductive StepResult where
  | ret (shouldExit : Bool)
  | cont
deriving DecidableEq, Repr

/-- One iteration of the `wait_input` loop on one delivered event.
`index` is the in/out `&mut Option<usize>` parameter; `none` is a panic
inside the string editing.  Mirrors the source: the Ctrl+C test runs
before the `match code`; `Enter` writes the current selection to
`index` and exits exactly when it is `Some`; `Tab` sets `completion` to
`list_len > 0` and then advances the selection. -/
def waitInputStep (a : App) (index : Option Nat) (e : KeyEvent) :
    Option (StepResult × Option Nat × App) :=
  if e.press then
    if e.code = KeyCode.char 'c' ∧ e.ctrl = true then
      some (.ret true, index, a)
    else
      match e.code with
      | .char ch => (insertChar a ch).map fun a1 => (.ret false, index, a1)
      | .backspace => (deleteBefore a).map fun a1 => (.ret false, index, a1)
      | .delete => (deleteBefore a).map fun a1 => (.ret false, index, a1)
      | .up => some (.ret false, index,
          { a with selected := moveSelection a.list_len a.selected (-1) })
      | .down => some (.ret false, index,
          { a with selected := moveSelection a.list_len a.selected 1 })
      | .left => some (.ret false, index,
          { a with cursor_index :=
              if a.cursor_index > 0 then a.cursor_index - 1 else a.cursor_index })
      | .right => some (.ret false, index,
          { a with cursor_index :=
              if a.cursor_index < utf8Len a.query then a.cursor_index + 1
              else a.cursor_index })
      | .enter => some (.ret a.selected.isSome, a.selected, a)
      | .tab => some (.ret false, index,
          { a with completion := decide (0 < a.list_len),
                   selected := moveSelection a.list_len a.selected 1 })
      | .other => some (.cont, index, a)
  else some (.cont, index, a)

/-- One step of the interactive session: a render (`App::update` with
the candidate list the caller supplies for that frame) or one key event
processed by `wait_input`. -/
inductive Step where
  | render (list : List (List Char))
  | key (e : KeyEvent)

/-- Effect of one session step on the `App` state (`none` is a panic). -/
def stepApp (a : App) (s : Step) : Option App :=
  match s with
  | .render list => (update a list).map Prod.fst
  | .key e => (waitInputStep a none e).map fun r => r.2.2

/-- Run a sequence of session steps from a state, `none` as soon as any
step panics.  The states in the range of `run` from `initApp` are
exactly the reachable session states. -/
def run (a : App) : List Step → Option App
  | [] => some a
  | s :: rest =>
    match stepApp a s with
    | some a1 => run a1 rest
    | none => none

/-- Which terminal-restoration calls `App::exit` performs, and whether
it panics. -/
structure ExitOutcome where
  attempted_disable_raw : Bool
  attempted_leave_screen : Bool
  attempted_show_cursor : Bool
  panicked : Bool
deriving DecidableEq, Repr

/-- `App::exit`: when `running`, call `disable_raw_mode().unwrap()`,
then `execute!(.., LeaveAlternateScreen).unwrap()`, then
`show_cursor().unwrap()`.  Each boolean argument tells whether the
corresponding call returns `Ok`; `unwrap` of an `Err` panics, which
aborts the remaining calls. -/
def exitApp (running okDisable okLeave okShow : Bool) : ExitOutcome :=
  if running then
    if okDisable then
      if okLeave then
        if okShow then ⟨true, true, true, false⟩
        else ⟨true, true, true, true⟩
      else ⟨true, true, false, true⟩
    else ⟨true, false, false, true⟩
  else ⟨false, false, false, false⟩

/-- Concrete reachable state used as a witness input: the state after
typing the single ASCII character `a` from a fresh session. -/
def afterTypeA : App :=
  { running := true, query := ['a'], prompt := [], cursor_index := 1,
    list_len := 0, selected := none, completion := false }

/-- Concrete state used as a witness input: a state about to render
with the completion preview set. -/
def previewBefore : App :=
  { running := true, query := ['q'], prompt := ['>'], cursor_index := 1,
    list_len := 1, selected := some 0, completion := true }

/-- The state `previewBefore` turns into after rendering the
one-candidate list. -/
def previewAfter : App :=
  { running := true, query := ['q'], prompt := ['>'], cursor_index := 1,
    list_len := 1, selected := some 0, completion := false }

/-- Concrete state used as a witness input: query `ab` with the cursor
between the two characters. -/
def beforeCtrlX : App :=
  { running := true, query := ['a', 'b'], prompt := [], cursor_index := 1,
    list_len := 0, selected := none, completion := false }

/-! ### Helper lemmas -/

theorem utf8Len_cons (c : Char) (s : List Char) :
    utf8Len (c :: s) = c.utf8Size + utf8Len s := by
  simp [utf8Len]

theorem utf8Len_append (s t : List Char) :
    utf8Len (s ++ t) = utf8Len s + utf8Len t := by
  simp [utf8Len]

/-- A byte index accepted by `byteToCharIdx` is the byte length of the
character prefix it denotes. -/
theorem byteToCharIdx_take (q : List Char) (b k : Nat)
    (h : byteToCharIdx q b = some k) :
    k ≤ q.length ∧ utf8Len (q.take k) = b := by
  induction q generalizing b k with
  | nil =>
    cases b with
    | zero =>
      simp only [byteToCharIdx, Option.some.injEq] at h
      subst h
      simp [utf8Len]
    | succ b => simp [byteToCharIdx] at h
  | cons c cs ih =>
    cases b with
    | zero =>
      simp only [byteToCharIdx, Option.some.injEq] at h
      subst h
      simp [utf8Len]
    | succ b =>
      rw [byteToCharIdx] at h
      split at h
      · exact absurd h (by simp)
      · rename_i hsize
        cases hk : byteToCharIdx cs (b + 1 - c.utf8Size) with
        | none => rw [hk] at h; simp at h
        | some k1 =>
          rw [hk] at h
          simp only [Option.map_some', Option.some.injEq] at h
          subst h
          obtain ⟨h1, h2⟩ := ih _ _ hk
          refine ⟨by simpa using Nat.succ_le_succ h1, ?_⟩
          rw [List.take_succ_cons, utf8Len_cons, h2]
          omega

/-- The byte length of the whole string is always a character boundary,
denoting the position after the last character. -/
theorem byteToCharIdx_utf8Len (q : List Char) :
    byteToCharIdx q (utf8Len q) = some q.length := by
  induction q with
  | nil => rfl
  | cons c cs ih =>
    rw [utf8Len_cons]
    have hpos := Char.utf8Size_pos c
    obtain ⟨b, hb⟩ : ∃ b, c.utf8Size + utf8Len cs = b + 1 :=
      ⟨c.utf8Size + utf8Len cs - 1, by omega⟩
    rw [hb, byteToCharIdx, if_neg (by omega)]
    have hrest : b + 1 - c.utf8Size = utf8Len cs := by omega
    rw [hrest, ih]
    simp

/-- The cursor invariant that the code actually maintains: the byte
offset `cursor_index` never exceeds the byte length of `query`. -/
def cursorInv (a : App) : Prop := a.cursor_index ≤ utf8Len a.query

theorem insertChar_inv (a : App) (ch : Char) (a1 : App)
    (h : insertChar a ch = some a1) (hinv : cursorInv a) : cursorInv a1 := by
  have hsize := Char.utf8Size_pos ch
  unfold insertChar at h
  split at h
  · rename_i hend
    injection h with h
    subst h
    unfold cursorInv at hinv ⊢
    simp only [utf8Len_append, utf8Len_cons]
    simp [utf8Len] at hend ⊢
    omega
  · rename_i hend
    split at h
    · rename_i k hk
      injection h with h
      subst h
      have hsplit : utf8Len (a.query.take k) + utf8Len (a.query.drop k)
          = utf8Len a.query := by
        rw [← utf8Len_append, List.take_append_drop]
      unfold cursorInv at hinv ⊢
      simp only [utf8Len_append, utf8Len_cons]
      omega
    · exact absurd h (by simp)

theorem deleteBefore_inv (a a1 : App)
    (h : deleteBefore a = some a1) (hinv : cursorInv a) : cursorInv a1 := by
  unfold deleteBefore at h
  split at h
  · rename_i hpos
    split at h
    · rename_i k1 k2 h1 h2
      injection h with h
      subst h
      obtain ⟨hk1, hb1⟩ := byteToCharIdx_take _ _ _ h1
      unfold cursorInv at hinv ⊢
      simp only [utf8Len_append]
      omega
    · exact absurd h (by simp)
  · injection h with h
    subst h
    exact hinv

theorem selectFirstItem_fields (a : App) :
    (selectFirstItem a).query = a.query ∧
    (selectFirstItem a).cursor_index = a.cursor_index ∧
    (selectFirstItem a).prompt = a.prompt ∧
    (selectFirstItem a).completion = a.completion ∧
    (selectFirstItem a).list_len = a.list_len := by
  unfold selectFirstItem
  split
  · split <;> simp
  · simp

theorem update_fields (a : App) (list : List (List Char)) (a1 : App) (content : List Char)
    (h : update a list = some (a1, content)) :
    a1.query = a.query ∧ a1.cursor_index = a.cursor_index ∧
    a1.prompt = a.prompt ∧ a1.completion = false ∧ a1.list_len = list.length := by
  unfold update at h
  obtain ⟨hq, hc, hp, hcomp, hl⟩ := selectFirstItem_fields { a with list_len := list.length }
  split at h
  · rename_i c heq
    injection h with h
    injection h with h hcont
    subst h
    refine ⟨?_, ?_, ?_, rfl, ?_⟩
    · simpa using hq
    · simpa using hc
    · simpa using hp
    · simpa using hl
  · exact absurd h (by simp)

theorem stepApp_inv (a : App) (s : Step) (a1 : App)
    (h : stepApp a s = some a1) (hinv : cursorInv a) : cursorInv a1 := by
  cases s with
  | render list =>
    simp only [stepApp] at h
    cases hu : update a list with
    | none => rw [hu] at h; simp at h
    | some p =>
      rw [hu] at h
      simp only [Option.map_some', Option.some.injEq] at h
      subst h
      obtain ⟨hq, hc, _, _, _⟩ := update_fields a list p.1 p.2 (by rw [hu])
      unfold cursorInv at hinv ⊢
      rw [hq, hc]
      exact hinv
  | key e =>
    simp only [stepApp] at h
    cases hw : waitInputStep a none e with
    | none => rw [hw] at h; simp at h
    | some r =>
      rw [hw] at h
      simp only [Option.map_some', Option.some.injEq] at h
      subst h
      unfold waitInputStep at hw
      split at hw
      · split at hw
        · injection hw with hw; subst hw; exact hinv
        · split at hw
          · rename_i ch hcode
            cases hins : insertChar a ch with
            | none => rw [hins] at hw; simp at hw
            | some a2 =>
              rw [hins] at hw
              simp only [Option.map_some', Option.some.injEq] at hw
              subst hw
              exact insertChar_inv a ch a2 hins hinv
          · cases hdel : deleteBefore a with
            | none => rw [hdel] at hw; simp at hw
            | some a2 =>
              rw [hdel] at hw
              simp only [Option.map_some', Option.some.injEq] at hw
              subst hw
              exact deleteBefore_inv a a2 hdel hinv
          · cases hdel : deleteBefore a with
            | none => rw [hdel] at hw; simp at hw
            | some a2 =>
              rw [hdel] at hw
              simp only [Option.map_some', Option.some.injEq] at hw
              subst hw
              exact deleteBefore_inv a a2 hdel hinv
          · injection hw with hw; subst hw; exact hinv
          · injection hw with hw; subst hw; exact hinv
          · injection hw with hw; subst hw
            unfold cursorInv at hinv ⊢
            dsimp only
            split <;> omega
          · injection hw with hw; subst hw
            unfold cursorInv at hinv ⊢
            dsimp only
            split <;> omega
          · injection hw with hw; subst hw; exact hinv
          · injection hw with hw; subst hw; exact hinv
          · injection hw with hw; subst hw; exact hinv
      · injection hw with hw; subst hw; exact hinv

theorem run_inv (steps : List Step) (a a1 : App)
    (h : run a steps = some a1) (hinv : cursorInv a) : cursorInv a1 := by
  induction steps generalizing a with
  | nil =>
    simp only [run, Option.some.injEq] at h
    subst h
    exact hinv
  | cons s rest ih =>
    rw [run] at h
    cases hs : stepApp a s with
    | none => rw [hs] at h; simp at h
    | some a2 =>
      rw [hs] at h
      exact ih a2 h (stepApp_inv a s a2 hs hinv)

/-- A boundary byte index determines the insertion result, including at
the end of the string where the source uses `push` instead of
`insert`. -/
theorem insertChar_boundary (a : App) (ch : Char) (k : Nat)
    (hb : byteToCharIdx a.query a.cursor_index = some k) :
    insertChar a ch =
      some { a with query := a.query.take k ++ ch :: a.query.drop k,
                    cursor_index := a.cursor_index + 1 } := by
  unfold insertChar
  split
  · rename_i hend
    rw [hend, byteToCharIdx_utf8Len] at hb
    injection hb with hb
    subst hb
    simp [List.take_length, List.drop_length]
  · rw [hb]

/-! ### Claims -/

/-- C1: the claimed invariant "`selection` is `None` iff `list_len == 0`,
otherwise `0 ≤ selection < list_len`, with the selection clamped or
reset when the list shrinks" fails on the code: rendering candidates
`[a, b]`, pressing Down (selection 1), then rendering the shorter list
`[a]` reaches a state with `list_len = 1` and `selected = some 1` —
`select_first_item` never clamps an existing selection, so the
selection stays out of bounds. -/
theorem shrink_leaves_selection_out_of_bounds :
    ((run (initApp []) [Step.render [['a'], ['b']],
        Step.key ⟨KeyCode.down, false, true⟩, Step.render [['a']]]).map
      fun a => (a.list_len, a.selected)) = some (1, some 1) ∧ ¬ (1 : Nat) < 1 := by
  constructor
  · decide
  · decide

/-- C2: the claimed unreachability of the out-of-bounds /
unwrap-of-`None` branch in the completion-preview lookup fails on the
code: pressing Tab while one candidate is shown and then rendering an
empty candidate list panics (`select_first_item` clears the selection,
`completion` is still set, and `list[self.list_state.selected().unwrap()]`
unwraps `None`). -/
theorem completion_preview_panic_reachable :
    run (initApp []) [Step.render [['a']],
      Step.key ⟨KeyCode.tab, false, true⟩, Step.render []] = none := by decide

/-- C3 counterexample: the claim says stepping from a `None` selection
with a non-empty list yields a set selection `(0 + direction) mod
list_len`; the code's `move_selection!` re-selects `None` instead
(`$state.select(... else { None })`), so with `list_len = 3` the result
is `none`, not a set selection. -/
theorem moveSelection_none_cex : moveSelection 3 none 1 = none := by decide

/-- C3 (amended): `step(direction)` is a no-op when `list_len == 0`, and
also a no-op when the selection is `None` (even with a non-empty list);
otherwise, from a selected index `i < list_len` the new selection is
`(i + direction) mod list_len`, computed with wraparound so that
stepping `-1` from `0` yields `list_len - 1` and stepping `+1` from
`list_len - 1` yields `0`. -/
theorem moveSelection_wraparound (n : Nat) (sel : Option Nat) (dir : Int)
    (hdir : dir = -1 ∨ dir = 1) :
    (n = 0 → moveSelection n sel dir = sel) ∧
    moveSelection n none dir = none ∧
    ∀ i : Nat, i < n →
      moveSelection n (some i) dir = some (((i : Int) + dir) % (n : Int)).toNat := by
  refine ⟨fun hn => by simp [moveSelection, hn], ?_, ?_⟩
  · unfold moveSelection
    split <;> rfl
  · intro i hi
    have hn : 0 < n := Nat.lt_of_le_of_lt (Nat.zero_le i) hi
    have hred : ∀ d : Int, moveSelection n (some i) d =
        some (if (i : Int) + d < 0 then n - 1 else ((i : Int) + d).toNat % n) := by
      intro d
      simp [moveSelection, hn]
    rcases hdir with h | h <;> subst h <;> rw [hred]
    · rcases Nat.eq_zero_or_pos i with hi0 | hipos
      · subst hi0
        have hlt : ((0 : Nat) : Int) + -1 < 0 := by norm_num
        rw [if_pos hlt]
        have h2 : ((-1 : Int) + (n : Int) * 1) % (n : Int) = (-1 : Int) % (n : Int) :=
          Int.add_mul_emod_self_left ..
        have h3 : ((-1 : Int) + (n : Int) * 1) % (n : Int) = (-1 : Int) + (n : Int) := by
          rw [mul_one]
          exact Int.emod_eq_of_lt (by omega) (by omega)
        have h4 : (((0 : Nat) : Int) + -1) % (n : Int) = (-1 : Int) % (n : Int) := by
          norm_num
        rw [h4]
        congr 1
        omega
      · have hge : ¬ ((i : Int) + -1 < 0) := by omega
        rw [if_neg hge]
        have h1 : ((i : Int) + -1) = ((i - 1 : Nat) : Int) := by omega
        rw [h1, Int.emod_eq_of_lt (by omega) (by omega)]
        congr 1
        have h5 : ((i - 1 : Nat) : Int).toNat = i - 1 := by omega
        rw [h5]
        exact Nat.mod_eq_of_lt (by omega)
    · have hge : ¬ ((i : Int) + 1 < 0) := by omega
      rw [if_neg hge]
      have h1 : ((i : Int) + 1) = ((i + 1 : Nat) : Int) := by omega
      rw [h1, ← Int.natCast_mod]
      congr 1

/-- C3 witness: stepping `-1` from selection `0` in a list of length 3
wraps to `(0 - 1) mod 3`, i.e. index 2. -/
theorem moveSelection_wraparound_witness :
    moveSelection 3 (some 0) (-1) = some ((((0 : Nat) : Int) + -1) % ((3 : Nat) : Int)).toNat :=
  (moveSelection_wraparound 3 (some 0) (-1) (Or.inl rfl)).2.2 0 (by decide)

/-- C4: the claim that `insert(ch)` (and the other editing operations)
never fails, including for multi-byte characters, fails on the code:
typing `é` (two UTF-8 bytes, after which `cursor_index = 1` but the
query is 2 bytes long) and then typing `a` calls
`String::insert(1, 'a')`, and byte index 1 is not a character boundary,
so the insertion panics. -/
theorem insert_multibyte_panics :
    run (initApp []) [Step.key ⟨KeyCode.char 'é', false, true⟩,
      Step.key ⟨KeyCode.char 'a', false, true⟩] = none := by decide

/-- C5 counterexample: the claimed invariant `cursor_index ≤ len(query)`
with the unit being the character count fails on the code: after typing
`é` and pressing Right (allowed because `cursor_index = 1` is below the
byte length 2), the reachable state has `cursor_index = 2` while the
query holds 1 character. -/
theorem cursor_exceeds_charLen_cex :
    ((run (initApp []) [Step.key ⟨KeyCode.char 'é', false, true⟩,
        Step.key ⟨KeyCode.right, false, true⟩]).map
      fun a => (a.cursor_index, a.query.length)) = some (2, 1) ∧ ¬ (2 : Nat) ≤ 1 := by
  constructor
  · decide
  · decide

/-- C5 (amended): for every reachable (non-panicking) session state,
`0 ≤ cursor_index ≤ len(query)` holds with `len` measured in UTF-8
bytes (the unit the code actually uses: `String::len` and the slicing
offsets), not in characters; every operation preserves this byte-unit
invariant. -/
theorem reachable_cursor_le_byteLen (prompt : List Char) (steps : List Step) (a : App)
    (h : run (initApp prompt) steps = some a) :
    a.cursor_index ≤ utf8Len a.query :=
  run_inv steps (initApp prompt) a h (Nat.le_refl 0)

/-- C5 witness: the byte-unit cursor bound at the concrete reachable
state reached by typing `a` from a fresh session. -/
theorem reachable_cursor_le_byteLen_witness :
    afterTypeA.cursor_index ≤ utf8Len afterTypeA.query :=
  reachable_cursor_le_byteLen [] [Step.key ⟨KeyCode.char 'a', false, true⟩]
    afterTypeA (by decide)

/-- C6: the claim that a failed restoration step is reported without
aborting the remaining steps fails on the code: when `running` and
`disable_raw_mode` returns an error, its `unwrap()` panics, so leaving
the alternate screen and re-showing the cursor are never attempted. -/
theorem exit_skips_remaining_on_failure :
    exitApp true false true true =
      { attempted_disable_raw := true, attempted_leave_screen := false,
        attempted_show_cursor := false, panicked := true } := by decide

/-- C7: for every session state and any current query or selection, a
press of the character `c` with the Control modifier makes `wait_input`
return immediately with `should_exit = true`, the confirmed-index
out-parameter left `None` (it is never written on this path), and the
session state unchanged. -/
theorem ctrl_c_cancels (a : App) (idx : Option Nat) (h : idx = none) :
    waitInputStep a idx ⟨KeyCode.char 'c', true, true⟩ =
      some (StepResult.ret true, none, a) := by
  subst h
  rfl

/-- C7 witness: Ctrl+C on a fresh session. -/
theorem ctrl_c_cancels_witness :
    waitInputStep (initApp []) none ⟨KeyCode.char 'c', true, true⟩ =
      some (StepResult.ret true, none, initApp []) :=
  ctrl_c_cancels (initApp []) none rfl

/-- C8: every render that completes clears `completion` to `false`, and
the frame's input-region content is computed from the flag's value at
the start of the render (before the clear): when the flag was `false`
the content is `prompt + query`, and when it was `true` the content is
the selected candidate's display string — so after any render where the
preview was active the flag reads `false` at the start of the next
render, and the preview lasts exactly one frame. -/
theorem render_clears_completion (a : App) (list : List (List Char))
    (a1 : App) (content : List Char) (h : update a list = some (a1, content)) :
    a1.completion = false ∧
    (a.completion = false → content = a.prompt ++ a.query) ∧
    (a.completion = true →
      ∃ i, (selectFirstItem { a with list_len := list.length }).selected = some i ∧
        list.get? i = some content) := by
  obtain ⟨hq, hc, hp, hcomp, hl⟩ := selectFirstItem_fields { a with list_len := list.length }
  unfold update at h
  split at h
  · rename_i c heq
    injection h with h
    injection h with h hcont
    subst h
    subst hcont
    refine ⟨rfl, ?_, ?_⟩
    · intro hfalse
      unfold inputContent at heq
      rw [if_neg (by rw [hcomp]; simp [hfalse])] at heq
      injection heq with heq
      rw [← heq]
      congr 1
    · intro htrue
      unfold inputContent at heq
      rw [if_pos (by rw [hcomp]; simpa using htrue)] at heq
      split at heq
      · rename_i i hsel
        exact ⟨i, hsel, heq⟩
      · exact absurd heq (by simp)
  · exact absurd h (by simp)

/-- C8 witness: rendering a one-candidate list from a state with the
preview active yields the candidate's string as input content and
clears the flag. -/
theorem render_clears_completion_witness :
    previewAfter.completion = false ∧
    (previewBefore.completion = false →
      ['x'] = previewBefore.prompt ++ previewBefore.query) ∧
    (previewBefore.completion = true →
      ∃ i, (selectFirstItem { previewBefore with list_len := [['x']].length }).selected
          = some i ∧ [['x']].get? i = some ['x']) :=
  render_clears_completion previewBefore [['x']] previewAfter ['x'] (by decide)

/-- C9: a press of Enter writes the current selection to the
confirmed-index out-parameter and returns `should_exit` equal to
whether the selection is `Some`; when the selection is `None` the loop
continues and the session state is unchanged (indeed the state is
unchanged in both cases). -/
theorem enter_captures_selection (a : App) (idx : Option Nat) (b : Bool) :
    waitInputStep a idx ⟨KeyCode.enter, b, true⟩ =
      some (StepResult.ret a.selected.isSome, a.selected, a) := by
  simp [waitInputStep]

/-- C10: a press of a character other than `c` with the Control
modifier is neither a cancel nor ignored: it falls through to the
printable-character transition, inserting the character at the cursor's
(boundary) byte position, incrementing `cursor_index`, and returning
`should_exit = false` so the loop continues. -/
theorem ctrl_modifier_other_char_inserts (a : App) (idx : Option Nat) (ch : Char) (k : Nat)
    (hch : ch ≠ 'c') (hb : byteToCharIdx a.query a.cursor_index = some k) :
    waitInputStep a idx ⟨KeyCode.char ch, true, true⟩ =
      some (StepResult.ret false, idx,
        { a with query := a.query.take k ++ ch :: a.query.drop k,
                 cursor_index := a.cursor_index + 1 }) := by
  rw [show waitInputStep a idx ⟨KeyCode.char ch, true, true⟩ =
      (insertChar a ch).map (fun a1 => (StepResult.ret false, idx, a1)) from by
    simp [waitInputStep, hch]]
  rw [insertChar_boundary a ch k hb]
  rfl

/-- C10 witness: Ctrl+X with query `ab` and the cursor after `a`
inserts `x` between the two characters. -/
theorem ctrl_modifier_other_char_inserts_witness :
    waitInputStep beforeCtrlX none ⟨KeyCode.char 'x', true, true⟩ =
      some (StepResult.ret false, none,
        { beforeCtrlX with
            query := beforeCtrlX.query.take 1 ++ 'x' :: beforeCtrlX.query.drop 1,
            cursor_index := beforeCtrlX.cursor_index + 1 }) :=
  ctrl_modifier_other_char_inserts beforeCtrlX none 'x' 1 (by decide) (by decide)

end MacLauncher
